import Mathlib

/-!
Shallow embedding of `vpn_config_server.py`: the VLESS config normalizer,
the admin key-upload and assignment handlers, and the public subscription
retrieval endpoint, together with proofs about the specification claims.

Strings are modelled as Lean `String`s; the character-level processing of
the normalizer works on `List Char` (the `data` of a `String`).  Machine
I/O (reading and writing the JSON documents) is out of scope: handlers are
functions from the loaded stores to the stores they save.  The base64
decoding of the retrieval token and the ISO-8601 timestamp parser are
standard-library calls in the source; they are abstracted as parameters
(`decoded : Option String`, `parseEnd : String → Option Int`) of the
retrieval handler.
-/

namespace VpnConfig

/-! ## Character-level utilities shared by the parsers -/

/-- Split a list at the first occurrence of `c`: `some (before, after)` when
`c` occurs, `none` otherwise.  Models Python's `split(c, 1)` (which yields
two parts exactly when the separator occurs) and the regex idiom
`([^c]+)c`. -/
def splitFirst (c : Char) : List Char → Option (List Char × List Char)
  | [] => none
  | x :: xs =>
    if x = c then some ([], xs)
    else
      match splitFirst c xs with
      | none => none
      | some (pre, suf) => some (x :: pre, suf)

/-- Python's `str.split('&')`: the list of `'&'`-separated chunks
(an empty input gives one empty chunk, like `"".split('&') == [""]`). -/
def splitOnAmp : List Char → List (List Char)
  | [] => [[]]
  | c :: rest =>
    if c = '&' then [] :: splitOnAmp rest
    else
      match splitOnAmp rest with
      | p :: ps => (c :: p) :: ps
      | [] => [[c]]

/-- Python's `'&'.join`. -/
def joinAmp : List (List Char) → List Char
  | [] => []
  | [p] => p
  | p :: ps => p ++ '&' :: joinAmp ps

/-- The `.replace('+', ' ')` step of `urllib.parse.parse_qsl`. -/
def replacePlus (l : List Char) : List Char :=
  l.map fun c => if c = '+' then ' ' else c

/-- Value of a hexadecimal digit, if the character is one. -/
def hexVal (c : Char) : Option Nat :=
  if '0' ≤ c ∧ c ≤ '9' then some (c.toNat - '0'.toNat)
  else if 'a' ≤ c ∧ c ≤ 'f' then some (c.toNat - 'a'.toNat + 10)
  else if 'A' ≤ c ∧ c ≤ 'F' then some (c.toNat - 'A'.toNat + 10)
  else none

/-- Collect the maximal leading run of `%XX` escapes as byte values,
returning the bytes and the remainder of the input. -/
def pctRun : List Char → List Nat × List Char
  | '%' :: a :: b :: rest =>
    match hexVal a, hexVal b with
    | some ha, some hb =>
      let r := pctRun rest
      ((16 * ha + hb) :: r.1, r.2)
    | _, _ => ([], '%' :: a :: b :: rest)
  | l => ([], l)

/-- The Unicode replacement character U+FFFD used by `errors='replace'`. -/
def replChar : Char := Char.ofNat 0xFFFD

/-- Is `b` a UTF-8 continuation byte? -/
def utf8Cont (b : Nat) : Bool := 0x80 ≤ b ∧ b < 0xC0

/-- Admissible second byte of a three-byte sequence headed by `b1`
(excludes overlong encodings and surrogates). -/
def utf8Snd3 (b1 b2 : Nat) : Bool :=
  if b1 = 0xE0 then 0xA0 ≤ b2 ∧ b2 < 0xC0
  else if b1 = 0xED then 0x80 ≤ b2 ∧ b2 < 0xA0
  else utf8Cont b2

/-- Admissible second byte of a four-byte sequence headed by `b1`. -/
def utf8Snd4 (b1 b2 : Nat) : Bool :=
  if b1 = 0xF0 then 0x90 ≤ b2 ∧ b2 < 0xC0
  else if b1 = 0xF4 then 0x80 ≤ b2 ∧ b2 < 0x90
  else utf8Cont b2

/-- Worker for UTF-8 decoding, with fuel (one unit per input byte suffices,
since every step consumes at least one byte). -/
def utf8DecodeAux : Nat → List Nat → List Char
  | _, [] => []
  | 0, _ => []
  | fuel + 1, b :: rest =>
    if b < 0x80 then Char.ofNat b :: utf8DecodeAux fuel rest
    else if b < 0xC2 then replChar :: utf8DecodeAux fuel rest
    else if b < 0xE0 then
      match rest with
      | [] => [replChar]
      | b2 :: r2 =>
        if utf8Cont b2 then
          Char.ofNat ((b - 0xC0) * 0x40 + (b2 - 0x80)) :: utf8DecodeAux fuel r2
        else replChar :: utf8DecodeAux fuel (b2 :: r2)
    else if b < 0xF0 then
      match rest with
      | [] => [replChar]
      | b2 :: r2 =>
        if utf8Snd3 b b2 then
          match r2 with
          | [] => [replChar]
          | b3 :: r3 =>
            if utf8Cont b3 then
              Char.ofNat ((b - 0xE0) * 0x1000 + (b2 - 0x80) * 0x40 + (b3 - 0x80)) ::
                utf8DecodeAux fuel r3
            else replChar :: utf8DecodeAux fuel (b3 :: r3)
        else replChar :: utf8DecodeAux fuel (b2 :: r2)
    else if b < 0xF5 then
      match rest with
      | [] => [replChar]
      | b2 :: r2 =>
        if utf8Snd4 b b2 then
          match r2 with
          | [] => [replChar]
          | b3 :: r3 =>
            if utf8Cont b3 then
              match r3 with
              | [] => [replChar]
              | b4 :: r4 =>
                if utf8Cont b4 then
                  Char.ofNat ((b - 0xF0) * 0x40000 + (b2 - 0x80) * 0x1000 +
                    (b3 - 0x80) * 0x40 + (b4 - 0x80)) :: utf8DecodeAux fuel r4
                else replChar :: utf8DecodeAux fuel (b3 :: r3)
            else replChar :: utf8DecodeAux fuel (b3 :: r3)
        else replChar :: utf8DecodeAux fuel (b2 :: r2)
    else replChar :: utf8DecodeAux fuel rest

/-- Decode a byte list as UTF-8 with replacement of invalid sequences,
modelling `bytes.decode('utf-8', errors='replace')`. -/
def utf8Decode (l : List Nat) : List Char :=
  utf8DecodeAux l.length l

/-- Worker for percent-decoding, with fuel (one unit per input character
suffices, since every step consumes at least one character). -/
def unquoteAux : Nat → List Char → List Char
  | _, [] => []
  | 0, l => l
  | fuel + 1, c :: rest =>
    if c = '%' then
      match pctRun (c :: rest) with
      | ([], _) => c :: unquoteAux fuel rest
      | (b :: bs, r) => utf8Decode (b :: bs) ++ unquoteAux fuel r
    else c :: unquoteAux fuel rest

/-- Python's `urllib.parse.unquote`: percent-escapes decode to bytes, each
maximal escape run is decoded as UTF-8 with replacement, malformed escapes
are kept literally. -/
def unquoteList (l : List Char) : List Char :=
  unquoteAux l.length l

/-- Python's `str.split('=', 1)`: `some (name, value)` when `'='` occurs. -/
def splitEq (l : List Char) : Option (List Char × List Char) :=
  splitFirst '=' l

/-! ## The query-string parser (`urllib.parse.parse_qs`) -/

/-- `urllib.parse.parse_qsl` with its defaults (`keep_blank_values=False`):
split on `'&'`; skip empty chunks, chunks without `'='`, and chunks whose
raw value is empty; plus-replace and percent-decode the surviving names
and values. -/
def parse_qsl (q : List Char) : List (List Char × List Char) :=
  (splitOnAmp q).filterMap fun piece =>
    if piece.isEmpty then none
    else
      match splitEq piece with
      | none => none
      | some (n, v) =>
        if v.isEmpty then none
        else some (unquoteList (replacePlus n), unquoteList (replacePlus v))

/-- Keep the first pair for each name, in first-occurrence order.  This is
the composite of `parse_qs` building a dict of value lists (insertion
ordered) and the server loop reading `values[0]` for each key. -/
def dedupKeys (seen : List (List Char)) : List (List Char × List Char) → List (List Char × List Char)
  | [] => []
  | kv :: rest =>
    if kv.1 ∈ seen then dedupKeys seen rest
    else kv :: dedupKeys (kv.1 :: seen) rest

/-! ## The VLESS regex and the normalizer -/

/-- The `(.*)$` tail of the regex applied to the text after `'#'` (with `.`
not matching a newline and `$` also matching just before a final newline):
the fragment, when the text has no newline except possibly a final one. -/
def fragTail (r : List Char) : Option (List Char) :=
  if '\n' ∈ r then
    if r.getLast? = some '\n' ∧ '\n' ∉ r.dropLast then some r.dropLast else none
  else some r

/-- Walk of the lazy group `(.+?)(?:#(.*))?$` after at least one character
has been consumed into `acc`: at each position first try to close with a
`#`-fragment, then with the end of the input (possibly before a final
newline), and otherwise consume one more non-newline character. -/
def goTail (acc : List Char) : List Char → Option (List Char × List Char)
  | [] => some (acc, [])
  | c :: rest =>
    if c = '#' then
      match fragTail rest with
      | some f => some (acc, f)
      | none => goTail (acc ++ [c]) rest
    else if c = '\n' then
      if rest = [] then some (acc, []) else none
    else goTail (acc ++ [c]) rest

/-- Match `(.+?)(?:#(.*))?$` against the text after the literal `'?'`,
returning the query string and the (possibly empty) fragment.  An absent
fragment and an empty one are both returned as `[]`, exactly as the server
collapses them with `m.group(5) or ""`. -/
def matchTail : List Char → Option (List Char × List Char)
  | [] => none
  | c :: rest => if c = '\n' then none else goTail [c] rest

/-- The regex `vless://([^@]+)@([^:]+):(\d+)\?(.+?)(?:#(.*))?$` from
`normalize_vless_for_v2raytun`, as a structured parse: credential, host,
port, query string and fragment. -/
def parseVlessL (l : List Char) :
    Option (List Char × List Char × List Char × List Char × List Char) :=
  if "vless://".data.isPrefixOf l then
    let rest0 := l.drop 8
    match splitFirst '@' rest0 with
    | none => none
    | some (u, rest1) =>
      if u = [] then none
      else
        match splitFirst ':' rest1 with
        | none => none
        | some (hst, rest2) =>
          if hst = [] then none
          else
            let prt := rest2.takeWhile Char.isDigit
            if prt = [] then none
            else
              match rest2.drop prt.length with
              | '?' :: tail => (matchTail tail).map fun pf => (u, hst, prt, pf.1, pf.2)
              | _ => none
  else none

/-- Build the parameter list the server's loop over `parse_qs(...).items()`
produces: first value per key, `authority` dropped, `encryption=none`
appended when no `encryption` key is present. -/
def processParams (q : List Char) : List (List Char × List Char) :=
  let pairs := (dedupKeys [] (parse_qsl q)).filter fun kv => kv.1 ≠ "authority".data
  if pairs.any fun kv => kv.1 = "encryption".data then pairs
  else pairs ++ [("encryption".data, "none".data)]

/-- Re-emission of the parameters: `key=value`, or the bare key when the
value is empty, joined by `'&'`. -/
def serializeParams (ps : List (List Char × List Char)) : List Char :=
  joinAmp (ps.map fun kv => if kv.2.isEmpty then kv.1 else kv.1 ++ '=' :: kv.2)

/-- A character kept by the fragment cleanup `re.sub(r"[^\w\-]", "", ·)`
(ASCII reading of `\w`). -/
def isWordDash (c : Char) : Bool := c.isAlphanum || c = '_' || c = '-'

/-- List-level body of `normalize_vless_for_v2raytun`. -/
def normalizeL (l : List Char) : List Char :=
  if ¬ ("vless://".data.isPrefixOf l) then l
  else
    match parseVlessL l with
    | none => l
    | some (u, hst, prt, q, fr) =>
      let newParams := serializeParams (processParams q)
      let base := "vless://".data ++ u ++ '@' :: hst ++ ':' :: prt ++ '?' :: newParams
      if fr = [] then base
      else
        let fc := (unquoteList fr).filter isWordDash
        if fc = [] then base else base ++ '#' :: fc

/-- The config normalizer `normalize_vless_for_v2raytun`: strip the
`authority` parameter, ensure `encryption=none`, clean the fragment.
Inputs without the scheme prefix or failing the regex are passed through
unchanged.  The `except` fallback of the source is unreachable for string
inputs (no statement in the `try` block can raise on a `str`), so the
function is total as written. -/
def normalize_vless_for_v2raytun (s : String) : String :=
  String.mk (normalizeL s.data)

/-- Python's `str.startswith`. -/
def pyStartsWith (pre s : String) : Bool :=
  pre.data.isPrefixOf s.data

/-! ## The key store and the subscription store -/

/-- The persisted `keys_store.json` document as `load_keys_store` returns
it: four lists of key strings. -/
structure KeysStore where
  trial : List String
  month : List String
  year : List String
  used : List String
deriving DecidableEq

/-- The empty key pool (`load_keys_store` on an absent document). -/
def emptyKeysStore : KeysStore := ⟨[], [], [], []⟩

/-- One subscription record of `subscriptions.json`. -/
structure SubRec where
  type : String
  key : String
  end_date : String
  active : Bool
  updated_at : String
deriving DecidableEq

/-- The `subscriptions.json` document: user-id string to record. -/
def Subs : Type := String → Option SubRec

/-- The empty subscription store. -/
def emptySubs : Subs := fun _ => none

/-! ## Sorting (Python `sorted` on deduplicated string lists) -/

/-- Insert into a sorted list of strings (code-point lexicographic order,
as Python compares strings). -/
def insSorted (x : String) : List String → List String
  | [] => [x]
  | y :: ys => if x < y then x :: y :: ys else y :: insSorted x ys

/-- Insertion sort standing in for Python's `sorted`. -/
def pySorted (l : List String) : List String :=
  l.foldr insSorted []

/-- Python's `sorted(set(l))`: order-insensitively, the deduplicated
contents of `l` in sorted order. -/
def pySortedSet (l : List String) : List String :=
  pySorted l.dedup

/-! ## Admin API -/

/-- The condition under which `_require_auth` aborts with 401:
`not AUTH_TOKEN or token != AUTH_TOKEN`. -/
def require_auth_rejects (secret header : String) : Prop :=
  secret = "" ∨ header ≠ secret

instance (secret header : String) : Decidable (require_auth_rejects secret header) := by
  unfold require_auth_rejects; infer_instance

/-- Request body of `/admin/keys/upload`: candidate keys per tier (an
absent field is the empty list, as `payload.get(t, []) or []`). -/
structure UploadPayload where
  trial : List String
  month : List String
  year : List String

/-- The inner loop of `admin_keys_upload` for one tier: working set
`bucket`, fixed `used` set, candidates in order.  Non-`vless://` strings
are skipped; normalized keys already in the bucket or in `used` are
skipped; the count of added keys is returned alongside the bucket. -/
def uploadBucket (used : List String) : List String → List String → List String × Nat
  | bucket, [] => (bucket, 0)
  | bucket, k :: ks =>
    if pyStartsWith "vless://" k then
      let nk := normalize_vless_for_v2raytun k
      if nk ∈ bucket ∨ nk ∈ used then uploadBucket used bucket ks
      else
        let r := uploadBucket used (nk :: bucket) ks
        (r.1, r.2 + 1)
    else uploadBucket used bucket ks

/-- The store mutation of `admin_keys_upload` (after auth): each tier
becomes `sorted(set(tier) ∪ accepted)`, `used` is read but never written.
Returns the new store and the per-tier added counts. -/
def uploadTransform (p : UploadPayload) (st : KeysStore) : KeysStore × (Nat × Nat × Nat) :=
  let t := uploadBucket st.used st.trial.dedup p.trial
  let m := uploadBucket st.used st.month.dedup p.month
  let y := uploadBucket st.used st.year.dedup p.year
  (⟨pySorted t.1, pySorted m.1, pySorted y.1, st.used⟩, (t.2, m.2, y.2))

/-- The `/admin/keys/upload` handler: HTTP status, saved store, and the
reported added counts.  401 leaves the store untouched. -/
def admin_keys_upload (secret header : String) (p : UploadPayload) (st : KeysStore) :
    Nat × KeysStore × (Nat × Nat × Nat) :=
  if require_auth_rejects secret header then (401, st, (0, 0, 0))
  else
    let r := uploadTransform p st
    (200, r.1, r.2)

/-- The key-store mutation of `admin_assign`: `remove` the key from each
tier list that contains it (first occurrence, a no-op otherwise) and add
it to `used` (`sorted(set(used) ∪ {key})`). -/
def assignTransform (key : String) (st : KeysStore) : KeysStore :=
  ⟨st.trial.erase key, st.month.erase key, st.year.erase key,
    pySortedSet (key :: st.used)⟩

/-- The `/admin/assign` handler: status, saved subscription store, saved
key store.  `user_id` is the JSON number of the request (`0` standing for
any falsy value), `nowIso` the `datetime.now(timezone.utc).isoformat()`
timestamp recorded in the subscription. -/
def admin_assign (secret header : String) (userId : Int) (ty key endDate nowIso : String)
    (subs : Subs) (st : KeysStore) : Nat × Subs × KeysStore :=
  if require_auth_rejects secret header then (401, subs, st)
  else if userId = 0 ∨ (ty ≠ "trial" ∧ ty ≠ "month" ∧ ty ≠ "year") ∨ key = "" then
    (400, subs, st)
  else
    let nk := normalize_vless_for_v2raytun key
    let subs' : Subs := fun s => if s = toString userId then
      some ⟨ty, nk, endDate, true, nowIso⟩ else subs s
    (200, subs', assignTransform nk st)

/-! ## The public retrieval endpoint -/

/-- An HTTP response of the retrieval endpoint: status code and plain-text
body. -/
structure HttpResp where
  status : Nat
  body : String
deriving DecidableEq

/-- `decoded.split("_", 1)`: the parts before and after the first
underscore, when there is one. -/
def splitUnderscore (d : String) : Option (String × String) :=
  match splitFirst '_' d.data with
  | none => none
  | some (pre, suf) => some (String.mk pre, String.mk suf)

/-- The expiry test of `get_subscription`: an end date is stored and
parses as an ISO-8601 timestamp that the current time exceeds.  The
composite of `fromisoformat` on the `Z`-rewritten string and the
UTC-normalized comparison is abstracted as `parseEnd`; a parse failure is
swallowed by the inner `try`. -/
def isExpired (parseEnd : String → Option Int) (now : Int) (endDate : String) : Bool :=
  if endDate = "" then false
  else
    match parseEnd endDate with
    | some t => now > t
    | none => false

/-- The checks of `/sub/<token>` performed after a successful subscription
lookup: active flag, plan type against the token, expiry, scheme prefix of
the stored key, and finally the normalized key with status 200. -/
def afterLookup (sub : SubRec) (tokTy : String) (parseEnd : String → Option Int)
    (now : Int) : HttpResp :=
  if sub.active = false then ⟨403, "Subscription inactive"⟩
  else if sub.type ≠ tokTy then ⟨400, "Wrong subscription type"⟩
  else if isExpired parseEnd now sub.end_date then ⟨403, "Subscription expired"⟩
  else if ¬ pyStartsWith "vless://" sub.key then ⟨404, "Key not found"⟩
  else ⟨200, normalize_vless_for_v2raytun sub.key⟩

/-- The `/sub/<token>` handler.  `decoded` is the outcome of
`base64.b64decode(token).decode("utf-8")`: `none` when that call raises,
in which case the surrounding `try` maps the exception to the generic 500
response.  A decoded text without an underscore gives the 400 `Bad token`
response; otherwise the text is split at its first underscore. -/
def get_subscription (decoded : Option String) (subs : Subs)
    (parseEnd : String → Option Int) (now : Int) : HttpResp :=
  match decoded with
  | none => ⟨500, "Internal server error"⟩
  | some d =>
    match splitUnderscore d with
    | none => ⟨400, "Bad token"⟩
    | some (uid, ty) =>
      match subs uid with
      | none => ⟨403, "Subscription inactive"⟩
      | some sub => afterLookup sub ty parseEnd now

/-! ## Operation sequences over the two stores -/

/-- An admin operation, as fielded by the two gated endpoints. -/
inductive Op
  | upload (p : UploadPayload)
  | assign (userId : Int) (ty key endDate nowIso : String)

/-- Apply one authorized admin operation to the two stores (a fixed
non-empty secret presented correctly). -/
def stepOp (st : KeysStore × Subs) : Op → KeysStore × Subs
  | .upload p => ((admin_keys_upload "admin" "admin" p st.1).2.1, st.2)
  | .assign userId ty key endDate nowIso =>
    let r := admin_assign "admin" "admin" userId ty key endDate nowIso st.2 st.1
    (r.2.2, r.2.1)

/-- Run a sequence of admin operations from the empty stores. -/
def runOps (ops : List Op) : KeysStore × Subs :=
  ops.foldl stepOp (emptyKeysStore, emptySubs)

/-! ## Lemmas: splitting at a first occurrence -/

theorem splitFirst_append {c : Char} {pre : List Char} (suf : List Char) (h : c ∉ pre) :
    splitFirst c (pre ++ c :: suf) = some (pre, suf) := by
  induction pre with
  | nil => simp [splitFirst]
  | cons x xs ih =>
    have hx : ¬ x = c := fun hc => h (hc ▸ List.mem_cons_self x xs)
    have hxs : c ∉ xs := fun hc => h (List.mem_cons_of_mem x hc)
    simp [splitFirst, hx, ih hxs]

theorem splitFirst_eq_none_iff {c : Char} {l : List Char} :
    splitFirst c l = none ↔ c ∉ l := by
  induction l with
  | nil => simp [splitFirst]
  | cons x xs ih =>
    by_cases hx : x = c
    · subst hx
      simp [splitFirst]
    · simp only [splitFirst, hx, if_false]
      cases hs : splitFirst c xs with
      | none =>
        have hnot : c ∉ xs := ih.mp hs
        simp [List.mem_cons, hnot]
        exact fun hc => hx hc.symm
      | some pr =>
        have hmem : c ∈ xs := by
          by_contra hc
          rw [ih.mpr hc] at hs
          exact Option.noConfusion hs
        simp [List.mem_cons, hmem]

theorem splitFirst_eq_some {c : Char} {l pre suf : List Char}
    (h : splitFirst c l = some (pre, suf)) : l = pre ++ c :: suf ∧ c ∉ pre := by
  induction l generalizing pre suf with
  | nil => simp [splitFirst] at h
  | cons x xs ih =>
    by_cases hx : x = c
    · subst hx
      simp [splitFirst] at h
      simp [h.1, h.2]
    · simp only [splitFirst, hx, if_false] at h
      cases hs : splitFirst c xs with
      | none => rw [hs] at h; exact Option.noConfusion h
      | some pr =>
        rw [hs] at h
        obtain ⟨pre', suf'⟩ := pr
        simp at h
        obtain ⟨hpre, hsuf⟩ := h
        obtain ⟨hxs, hnot⟩ := ih hs
        subst hpre hsuf
        refine ⟨by simp [hxs], ?_⟩
        simp [List.mem_cons, hnot]
        exact fun hc => hx hc.symm

/-! ## Lemmas: `'&'`-splitting and joining -/

theorem splitOnAmp_ne_nil (l : List Char) : splitOnAmp l ≠ [] := by
  cases l with
  | nil => simp [splitOnAmp]
  | cons c rest =>
    by_cases hc : c = '&'
    · simp [splitOnAmp, hc]
    · simp only [splitOnAmp, hc, if_false]
      cases splitOnAmp rest <;> simp

theorem mem_splitOnAmp {q piece : List Char} (hp : piece ∈ splitOnAmp q) :
    ∀ c ∈ piece, c ∈ q ∧ c ≠ '&' := by
  induction q generalizing piece with
  | nil =>
    simp [splitOnAmp] at hp
    simp [hp]
  | cons x xs ih =>
    by_cases hx : x = '&'
    · subst hx
      simp only [splitOnAmp, if_true] at hp
      rcases List.mem_cons.mp hp with h | h
      · simp [h]
      · intro c hc
        obtain ⟨hm, hne⟩ := ih h c hc
        exact ⟨List.mem_cons_of_mem _ hm, hne⟩
    · simp only [splitOnAmp, hx, if_false] at hp
      cases hs : splitOnAmp xs with
      | nil => exact absurd hs (splitOnAmp_ne_nil xs)
      | cons p ps =>
        rw [hs] at hp
        rcases List.mem_cons.mp hp with h | h
        · subst h
          intro c hc
          rcases List.mem_cons.mp hc with h | h
          · subst h
            exact ⟨List.mem_cons_self _ _, hx⟩
          · obtain ⟨hm, hne⟩ := ih (hs ▸ List.mem_cons_self p ps) c h
            exact ⟨List.mem_cons_of_mem _ hm, hne⟩
        · intro c hc
          obtain ⟨hm, hne⟩ := ih (hs ▸ List.mem_cons_of_mem p h) c hc
          exact ⟨List.mem_cons_of_mem _ hm, hne⟩

theorem splitOnAmp_no_amp {p : List Char} (h : '&' ∉ p) : splitOnAmp p = [p] := by
  induction p with
  | nil => simp [splitOnAmp]
  | cons x xs ih =>
    have hx : ¬ x = '&' := fun hc => h (hc ▸ List.mem_cons_self x xs)
    have hxs : '&' ∉ xs := fun hc => h (List.mem_cons_of_mem x hc)
    simp [splitOnAmp, hx, ih hxs]

theorem splitOnAmp_append {p r : List Char} (h : '&' ∉ p) :
    splitOnAmp (p ++ '&' :: r) = p :: splitOnAmp r := by
  induction p with
  | nil => simp [splitOnAmp]
  | cons x xs ih =>
    have hx : ¬ x = '&' := fun hc => h (hc ▸ List.mem_cons_self x xs)
    have hxs : '&' ∉ xs := fun hc => h (List.mem_cons_of_mem x hc)
    simp [splitOnAmp, hx, ih hxs]

theorem splitOnAmp_joinAmp {ps : List (List Char)} (hne : ps ≠ [])
    (h : ∀ p ∈ ps, '&' ∉ p) : splitOnAmp (joinAmp ps) = ps := by
  induction ps with
  | nil => exact absurd rfl hne
  | cons p ps ih =>
    cases ps with
    | nil => exact splitOnAmp_no_amp (h p (List.mem_cons_self _ _))
    | cons p' ps' =>
      have hj : joinAmp (p :: p' :: ps') = p ++ '&' :: joinAmp (p' :: ps') := rfl
      rw [hj, splitOnAmp_append (h p (List.mem_cons_self _ _))]
      rw [ih (by simp) (fun x hx => h x (List.mem_cons_of_mem p hx))]

theorem mem_joinAmp {ps : List (List Char)} {c : Char} (h : c ∈ joinAmp ps) :
    c = '&' ∨ ∃ p ∈ ps, c ∈ p := by
  induction ps with
  | nil => simp [joinAmp] at h
  | cons p ps ih =>
    cases ps with
    | nil =>
      right
      exact ⟨p, List.mem_cons_self _ _, h⟩
    | cons p' ps' =>
      have hj : joinAmp (p :: p' :: ps') = p ++ '&' :: joinAmp (p' :: ps') := rfl
      rw [hj] at h
      rcases List.mem_append.mp h with h | h
      · exact Or.inr ⟨p, List.mem_cons_self _ _, h⟩
      · rcases List.mem_cons.mp h with h | h
        · exact Or.inl h
        · rcases ih h with h | ⟨x, hx, hc⟩
          · exact Or.inl h
          · exact Or.inr ⟨x, List.mem_cons_of_mem p hx, hc⟩

theorem joinAmp_ne_nil {ps : List (List Char)} (hne : ps ≠ [])
    (h : ∀ p ∈ ps, p ≠ []) : joinAmp ps ≠ [] := by
  cases ps with
  | nil => exact absurd rfl hne
  | cons p ps =>
    cases ps with
    | nil => exact h p (List.mem_cons_self _ _)
    | cons p' ps' =>
      have hj : joinAmp (p :: p' :: ps') = p ++ '&' :: joinAmp (p' :: ps') := rfl
      rw [hj]
      simp

/-! ## Lemmas: percent-decoding -/

theorem replacePlus_eq_self {l : List Char} (h : '+' ∉ l) : replacePlus l = l := by
  unfold replacePlus
  induction l with
  | nil => simp
  | cons x xs ih =>
    have hx : ¬ x = '+' := fun hc => h (hc ▸ List.mem_cons_self x xs)
    have hxs : '+' ∉ xs := fun hc => h (List.mem_cons_of_mem x hc)
    simp [hx, ih hxs]

theorem replacePlus_ne_nil {l : List Char} (h : l ≠ []) : replacePlus l ≠ [] := by
  cases l with
  | nil => exact absurd rfl h
  | cons x xs => simp [replacePlus]

theorem plus_not_mem_replacePlus {l : List Char} : '+' ∉ replacePlus l := by
  intro hc
  unfold replacePlus at hc
  obtain ⟨x, _, hxeq⟩ := List.mem_map.mp hc
  by_cases hp : x = '+'
  · simp [hp] at hxeq
  · simp [hp] at hxeq

theorem mem_replacePlus {l : List Char} {c : Char} (h : c ∈ replacePlus l) :
    c = ' ' ∨ c ∈ l := by
  unfold replacePlus at h
  obtain ⟨x, hx, hc⟩ := List.mem_map.mp h
  by_cases hp : x = '+'
  · simp [hp] at hc
    exact Or.inl hc.symm
  · simp [hp] at hc
    exact Or.inr (hc ▸ hx)

theorem unquoteAux_eq_self {l : List Char} (h : '%' ∉ l) :
    ∀ fuel, unquoteAux fuel l = l := by
  induction l with
  | nil => intro fuel; cases fuel <;> rfl
  | cons x xs ih =>
    intro fuel
    have hx : ¬ x = '%' := fun hc => h (hc ▸ List.mem_cons_self x xs)
    have hxs : '%' ∉ xs := fun hc => h (List.mem_cons_of_mem x hc)
    cases fuel with
    | zero => rfl
    | succ fuel => simp [unquoteAux, hx, ih hxs fuel]

theorem unquoteList_eq_self {l : List Char} (h : '%' ∉ l) : unquoteList l = l :=
  unquoteAux_eq_self h _

theorem utf8DecodeAux_ne_nil {fuel : Nat} {b : Nat} {rest : List Nat} :
    utf8DecodeAux (fuel + 1) (b :: rest) ≠ [] := by
  simp only [utf8DecodeAux]
  repeat' split
  all_goals simp

theorem utf8Decode_ne_nil {b : Nat} {bs : List Nat} : utf8Decode (b :: bs) ≠ [] := by
  unfold utf8Decode
  have : (b :: bs).length = bs.length + 1 := rfl
  rw [this]
  exact utf8DecodeAux_ne_nil

theorem unquoteAux_ne_nil {l : List Char} (h : l ≠ []) (fuel : Nat) :
    unquoteAux fuel l ≠ [] := by
  cases l with
  | nil => exact absurd rfl h
  | cons x xs =>
    cases fuel with
    | zero => simp [unquoteAux]
    | succ fuel =>
      simp only [unquoteAux]
      by_cases hx : x = '%'
      · simp only [hx, if_true]
        cases hr : pctRun ('%' :: xs) with
        | mk bs r =>
          cases bs with
          | nil => simp
          | cons b bs' =>
            simp only
            exact List.append_ne_nil_of_left_ne_nil utf8Decode_ne_nil _
      · simp [hx]

theorem unquoteList_ne_nil {l : List Char} (h : l ≠ []) : unquoteList l ≠ [] :=
  unquoteAux_ne_nil h _

/-! ## Lemmas: the query-string parser -/

/-- A query string free of the characters whose decoding can re-decode
differently on a second pass: no fragment marker or newline breaking the
regex, and no percent sign (a literal `'+'` is allowed: it becomes a
space on the first pass and a space is inert afterwards). -/
def QClean (q : List Char) : Prop :=
  ∀ c ∈ q, c ≠ '#' ∧ c ≠ '\n' ∧ c ≠ '%'

instance (q : List Char) : Decidable (QClean q) := by
  unfold QClean; infer_instance

/-- A parameter pair that `serializeParams` followed by `parse_qsl` maps
to itself, and whose characters cannot disturb the surrounding regex
match. -/
def PairClean (kv : List Char × List Char) : Prop :=
  ('&' ∉ kv.1 ∧ '=' ∉ kv.1 ∧ '%' ∉ kv.1 ∧ '+' ∉ kv.1 ∧ '#' ∉ kv.1 ∧ '\n' ∉ kv.1) ∧
    (kv.2 ≠ [] ∧ '&' ∉ kv.2 ∧ '%' ∉ kv.2 ∧ '+' ∉ kv.2 ∧ '#' ∉ kv.2 ∧ '\n' ∉ kv.2)

theorem parse_qsl_val_ne_nil {q : List Char} {kv : List Char × List Char}
    (h : kv ∈ parse_qsl q) : kv.2 ≠ [] := by
  unfold parse_qsl at h
  obtain ⟨piece, _, hf⟩ := List.mem_filterMap.mp h
  by_cases hp : piece.isEmpty
  · simp [hp] at hf
  · simp only [hp, if_false] at hf
    cases hs : splitEq piece with
    | none => rw [hs] at hf; exact Option.noConfusion hf
    | some nv =>
      rw [hs] at hf
      obtain ⟨n, v⟩ := nv
      by_cases hv : v.isEmpty
      · simp [hv] at hf
      · have hvne : v ≠ [] := by simpa [List.isEmpty_iff] using hv
        simp only [hp, hv, Bool.false_eq_true, if_false, Option.some_inj] at hf
        rw [← hf]
        exact unquoteList_ne_nil (replacePlus_ne_nil hvne)

theorem parse_qsl_clean {q : List Char} (hq : QClean q) :
    ∀ kv ∈ parse_qsl q, PairClean kv := by
  intro kv h
  unfold parse_qsl at h
  obtain ⟨piece, hpiece, hf⟩ := List.mem_filterMap.mp h
  have hchars := mem_splitOnAmp hpiece
  by_cases hp : piece.isEmpty
  · simp [hp] at hf
  · simp only [hp, if_false] at hf
    cases hs : splitEq piece with
    | none => rw [hs] at hf; exact Option.noConfusion hf
    | some nv =>
      rw [hs] at hf
      obtain ⟨n, v⟩ := nv
      by_cases hv : v.isEmpty
      · simp [hv] at hf
      · have hvne : v ≠ [] := by simpa [List.isEmpty_iff] using hv
        simp only [hp, hv, Bool.false_eq_true, if_false, Option.some_inj] at hf
        obtain ⟨hpieceeq, hne⟩ := splitFirst_eq_some hs
        have hnmem : ∀ c ∈ n, c ∈ piece := by
          intro c hc
          rw [hpieceeq]
          exact List.mem_append.mpr (Or.inl hc)
        have hvmem : ∀ c ∈ v, c ∈ piece := by
          intro c hc
          rw [hpieceeq]
          exact List.mem_append.mpr (Or.inr (List.mem_cons_of_mem _ hc))
        have hpc : ∀ c ∈ piece, c ≠ '#' ∧ c ≠ '\n' ∧ c ≠ '%' ∧ c ≠ '&' := by
          intro c hc
          obtain ⟨hmq, hamp⟩ := hchars c hc
          obtain ⟨h1, h2, h3⟩ := hq c hmq
          exact ⟨h1, h2, h3, hamp⟩
        have hpn : '%' ∉ replacePlus n := by
          intro hc
          rcases mem_replacePlus hc with h | h
          · exact absurd h (by decide)
          · exact (hpc '%' (hnmem _ h)).2.2.1 rfl
        have hpv : '%' ∉ replacePlus v := by
          intro hc
          rcases mem_replacePlus hc with h | h
          · exact absurd h (by decide)
          · exact (hpc '%' (hvmem _ h)).2.2.1 rfl
        have hkv : kv = (replacePlus n, replacePlus v) := by
          rw [← hf, unquoteList_eq_self hpn, unquoteList_eq_self hpv]
        subst hkv
        constructor
        · refine ⟨?_, ?_, hpn, plus_not_mem_replacePlus, ?_, ?_⟩
          · intro hc
            rcases mem_replacePlus hc with h | h
            · exact absurd h (by decide)
            · exact (hpc '&' (hnmem _ h)).2.2.2 rfl
          · intro hc
            rcases mem_replacePlus hc with h | h
            · exact absurd h (by decide)
            · exact hne h
          · intro hc
            rcases mem_replacePlus hc with h | h
            · exact absurd h (by decide)
            · exact (hpc '#' (hnmem _ h)).1 rfl
          · intro hc
            rcases mem_replacePlus hc with h | h
            · exact absurd h (by decide)
            · exact (hpc '\n' (hnmem _ h)).2.1 rfl
        · refine ⟨replacePlus_ne_nil hvne, ?_, hpv, plus_not_mem_replacePlus, ?_, ?_⟩
          · intro hc
            rcases mem_replacePlus hc with h | h
            · exact absurd h (by decide)
            · exact (hpc '&' (hvmem _ h)).2.2.2 rfl
          · intro hc
            rcases mem_replacePlus hc with h | h
            · exact absurd h (by decide)
            · exact (hpc '#' (hvmem _ h)).1 rfl
          · intro hc
            rcases mem_replacePlus hc with h | h
            · exact absurd h (by decide)
            · exact (hpc '\n' (hvmem _ h)).2.1 rfl

theorem filterMap_id_of {α : Type} {l : List α} {h : α → Option α}
    (hl : ∀ a ∈ l, h a = some a) : l.filterMap h = l := by
  induction l with
  | nil => rfl
  | cons x xs ih =>
    rw [List.filterMap_cons, hl x (List.mem_cons_self _ _),
      ih (fun a ha => hl a (List.mem_cons_of_mem _ ha))]

theorem parse_qsl_serialize {ps : List (List Char × List Char)} (hne : ps ≠ [])
    (hclean : ∀ kv ∈ ps, PairClean kv) :
    parse_qsl (serializeParams ps) = ps := by
  have hmap : ps.map (fun kv => if kv.2.isEmpty then kv.1 else kv.1 ++ '=' :: kv.2) =
      ps.map (fun kv => kv.1 ++ '=' :: kv.2) := by
    apply List.map_congr_left
    intro kv hkv
    have hv : ¬ kv.2.isEmpty := by
      simpa [List.isEmpty_iff] using (hclean kv hkv).2.1
    simp [hv]
  unfold serializeParams
  rw [hmap]
  have hsplit : splitOnAmp (joinAmp (ps.map (fun kv => kv.1 ++ '=' :: kv.2))) =
      ps.map (fun kv => kv.1 ++ '=' :: kv.2) := by
    apply splitOnAmp_joinAmp
    · simpa using hne
    · intro p hp
      obtain ⟨kv, hkv, hpeq⟩ := List.mem_map.mp hp
      obtain ⟨⟨hk1, _, _, _, _, _⟩, ⟨_, hv1, _, _, _, _⟩⟩ := hclean kv hkv
      rw [← hpeq]
      intro hc
      rcases List.mem_append.mp hc with hc | hc
      · exact hk1 hc
      · rcases List.mem_cons.mp hc with hc | hc
        · exact absurd hc.symm (by decide)
        · exact hv1 hc
  unfold parse_qsl
  rw [hsplit, List.filterMap_map]
  apply filterMap_id_of
  intro kv hkv
  obtain ⟨⟨hk1, hk2, hk3, hk4, _, _⟩, ⟨hvne, hv1, hv3, hv4, _, _⟩⟩ := hclean kv hkv
  have hpe : ((kv.1 ++ '=' :: kv.2).isEmpty) = false := by
    simp [List.isEmpty_iff]
  have hse : splitEq (kv.1 ++ '=' :: kv.2) = some (kv.1, kv.2) :=
    splitFirst_append _ hk2
  have hve : (kv.2.isEmpty) = false := by simpa [List.isEmpty_iff] using hvne
  simp only [Function.comp_apply, hpe, Bool.false_eq_true, if_false, hse, hve,
    replacePlus_eq_self hk4, replacePlus_eq_self hv4,
    unquoteList_eq_self hk3, unquoteList_eq_self hv3]

/-! ## Lemmas: first-value deduplication -/

theorem dedupKeys_sublist (seen : List (List Char)) (l : List (List Char × List Char)) :
    (dedupKeys seen l).Sublist l := by
  induction l generalizing seen with
  | nil => simp [dedupKeys]
  | cons kv rest ih =>
    by_cases h : kv.1 ∈ seen
    · simp only [dedupKeys, h, if_true]
      exact (ih seen).trans (List.sublist_cons_self _ _)
    · simp only [dedupKeys, h, if_false]
      exact List.Sublist.cons₂ _ (ih _)

theorem dedupKeys_keys_nodup (seen : List (List Char)) (l : List (List Char × List Char)) :
    ((dedupKeys seen l).map Prod.fst).Nodup ∧
      ∀ kv ∈ dedupKeys seen l, kv.1 ∉ seen := by
  induction l generalizing seen with
  | nil => simp [dedupKeys]
  | cons kv rest ih =>
    by_cases h : kv.1 ∈ seen
    · simp only [dedupKeys, h, if_true]
      exact ih seen
    · simp only [dedupKeys, h, if_false, List.map_cons, List.nodup_cons]
      obtain ⟨hnodup, hseen⟩ := ih (kv.1 :: seen)
      refine ⟨⟨?_, hnodup⟩, ?_⟩
      · intro hc
        obtain ⟨x, hx, hxeq⟩ := List.mem_map.mp hc
        exact hseen x hx (hxeq ▸ List.mem_cons_self _ _)
      · intro x hx
        rcases List.mem_cons.mp hx with hx | hx
        · exact hx ▸ h
        · exact fun hc => hseen x hx (List.mem_cons_of_mem _ hc)

theorem dedupKeys_eq_self {seen : List (List Char)} {l : List (List Char × List Char)}
    (hnodup : (l.map Prod.fst).Nodup) (hseen : ∀ kv ∈ l, kv.1 ∉ seen) :
    dedupKeys seen l = l := by
  induction l generalizing seen with
  | nil => rfl
  | cons kv rest ih =>
    have h : kv.1 ∉ seen := hseen kv (List.mem_cons_self _ _)
    simp only [dedupKeys, h, if_false]
    congr 1
    apply ih (by simpa using hnodup.of_cons)
    intro x hx
    simp only [List.mem_cons]
    rintro (hc | hc)
    · simp only [List.map_cons, List.nodup_cons] at hnodup
      exact hnodup.1 (hc ▸ List.mem_map_of_mem Prod.fst hx)
    · exact hseen x (List.mem_cons_of_mem _ hx) hc

/-! ## Lemmas: the processed parameter list -/

/-- Unfolded form of `processParams`, for controlled rewriting. -/
theorem processParams_def (q : List Char) :
    processParams q =
      if ((dedupKeys [] (parse_qsl q)).filter fun kv => kv.1 ≠ "authority".data).any
          (fun kv => kv.1 = "encryption".data) then
        (dedupKeys [] (parse_qsl q)).filter fun kv => kv.1 ≠ "authority".data
      else ((dedupKeys [] (parse_qsl q)).filter fun kv => kv.1 ≠ "authority".data) ++
        [("encryption".data, "none".data)] := rfl

theorem mem_processParams {q : List Char} {kv : List Char × List Char}
    (hkv : kv ∈ processParams q) :
    kv ∈ parse_qsl q ∨ kv = ("encryption".data, "none".data) := by
  rw [processParams_def] at hkv
  by_cases henc : ((dedupKeys [] (parse_qsl q)).filter
      fun kv => kv.1 ≠ "authority".data).any fun kv => kv.1 = "encryption".data
  · rw [if_pos henc] at hkv
    exact Or.inl ((dedupKeys_sublist _ _).subset ((List.filter_sublist _).subset hkv))
  · rw [if_neg henc] at hkv
    rcases List.mem_append.mp hkv with h | h
    · exact Or.inl ((dedupKeys_sublist _ _).subset ((List.filter_sublist _).subset h))
    · exact Or.inr (by simpa using h)

theorem processParams_val_ne_nil {q : List Char} :
    ∀ kv ∈ processParams q, kv.2 ≠ [] := by
  intro kv hkv
  rcases mem_processParams hkv with h | h
  · exact parse_qsl_val_ne_nil h
  · simp [h]

theorem processParams_clean {q : List Char} (hq : QClean q) :
    ∀ kv ∈ processParams q, PairClean kv := by
  intro kv hkv
  rcases mem_processParams hkv with h | h
  · exact parse_qsl_clean hq kv h
  · subst h
    constructor
    · refine ⟨?_, ?_, ?_, ?_, ?_, ?_⟩ <;> decide
    · refine ⟨?_, ?_, ?_, ?_, ?_, ?_⟩ <;> decide

theorem processParams_keys_nodup (q : List Char) :
    ((processParams q).map Prod.fst).Nodup := by
  rw [processParams_def]
  have hbase : (((dedupKeys [] (parse_qsl q)).filter
      fun kv => kv.1 ≠ "authority".data).map Prod.fst).Nodup := by
    refine List.Nodup.sublist ?_ (dedupKeys_keys_nodup [] (parse_qsl q)).1
    exact (List.filter_sublist _).map _
  by_cases henc : ((dedupKeys [] (parse_qsl q)).filter
      fun kv => kv.1 ≠ "authority".data).any fun kv => kv.1 = "encryption".data
  · rw [if_pos henc]
    exact hbase
  · rw [if_neg henc, List.map_append, List.nodup_append]
    refine ⟨hbase, by simp, ?_⟩
    intro x hx
    obtain ⟨kv, hkv, hxeq⟩ := List.mem_map.mp hx
    simp only [List.map_cons, List.map_nil, List.mem_singleton]
    intro hc
    apply henc
    rw [List.any_eq_true]
    exact ⟨kv, hkv, by simp [hxeq, hc]⟩

theorem processParams_has_encryption (q : List Char) :
    ∃ kv ∈ processParams q, kv.1 = "encryption".data := by
  rw [processParams_def]
  by_cases henc : ((dedupKeys [] (parse_qsl q)).filter
      fun kv => kv.1 ≠ "authority".data).any fun kv => kv.1 = "encryption".data
  · rw [if_pos henc]
    rw [List.any_eq_true] at henc
    obtain ⟨kv, hkv, heq⟩ := henc
    exact ⟨kv, hkv, by simpa using heq⟩
  · rw [if_neg henc]
    exact ⟨("encryption".data, "none".data), by simp⟩

theorem processParams_no_authority {q : List Char} :
    ∀ kv ∈ processParams q, kv.1 ≠ "authority".data := by
  intro kv hkv
  rw [processParams_def] at hkv
  by_cases henc : ((dedupKeys [] (parse_qsl q)).filter
      fun kv => kv.1 ≠ "authority".data).any fun kv => kv.1 = "encryption".data
  · rw [if_pos henc] at hkv
    simpa using (List.mem_filter.mp hkv).2
  · rw [if_neg henc] at hkv
    rcases List.mem_append.mp hkv with h | h
    · simpa using (List.mem_filter.mp h).2
    · have : kv = ("encryption".data, "none".data) := by simpa using h
      rw [this]
      decide

theorem processParams_ne_nil (q : List Char) : processParams q ≠ [] := by
  obtain ⟨kv, hkv, _⟩ := processParams_has_encryption q
  exact List.ne_nil_of_mem hkv

/-- Second pass stability: re-parsing the serialized parameters and
re-processing them is the identity on an already-processed list. -/
theorem processParams_stable {q : List Char} (hq : QClean q) :
    processParams (serializeParams (processParams q)) = processParams q := by
  have hclean := processParams_clean hq
  have hparse : parse_qsl (serializeParams (processParams q)) = processParams q :=
    parse_qsl_serialize (processParams_ne_nil q) hclean
  have hnodup := processParams_keys_nodup q
  rw [processParams_def (serializeParams (processParams q)), hparse]
  rw [dedupKeys_eq_self hnodup (by simp)]
  have hfilter : ((processParams q).filter fun kv => kv.1 ≠ "authority".data) =
      processParams q := by
    rw [List.filter_eq_self]
    intro kv hkv
    simpa using processParams_no_authority kv hkv
  rw [hfilter]
  have henc : ((processParams q).any fun kv => kv.1 = "encryption".data) = true := by
    rw [List.any_eq_true]
    obtain ⟨kv, hkv, heq⟩ := processParams_has_encryption q
    exact ⟨kv, hkv, by simpa using heq⟩
  rw [if_pos henc]

/-! ## Lemmas: the serialized parameter string -/

theorem serializeParams_chars {ps : List (List Char × List Char)}
    (hclean : ∀ kv ∈ ps, PairClean kv) :
    ∀ c ∈ serializeParams ps, c ≠ '#' ∧ c ≠ '\n' := by
  intro c hc
  unfold serializeParams at hc
  rcases mem_joinAmp hc with h | ⟨p, hp, hcp⟩
  · subst h; exact ⟨by decide, by decide⟩
  · obtain ⟨kv, hkv, hpeq⟩ := List.mem_map.mp hp
    obtain ⟨⟨_, _, _, _, hk5, hk6⟩, ⟨_, _, _, _, hv5, hv6⟩⟩ := hclean kv hkv
    rw [← hpeq] at hcp
    by_cases hv : kv.2.isEmpty
    · simp only [hv, if_true] at hcp
      exact ⟨fun h => hk5 (h ▸ hcp), fun h => hk6 (h ▸ hcp)⟩
    · simp only [hv, Bool.false_eq_true, if_false] at hcp
      rcases List.mem_append.mp hcp with h | h
      · exact ⟨fun hh => hk5 (hh ▸ h), fun hh => hk6 (hh ▸ h)⟩
      · rcases List.mem_cons.mp h with h | h
        · subst h; exact ⟨by decide, by decide⟩
        · exact ⟨fun hh => hv5 (hh ▸ h), fun hh => hv6 (hh ▸ h)⟩

theorem serializeParams_ne_nil {ps : List (List Char × List Char)} (hne : ps ≠ [])
    (hval : ∀ kv ∈ ps, kv.2 ≠ []) : serializeParams ps ≠ [] := by
  unfold serializeParams
  apply joinAmp_ne_nil (by simpa using hne)
  intro p hp
  obtain ⟨kv, hkv, hpeq⟩ := List.mem_map.mp hp
  have hv : (kv.2.isEmpty) = false := by simpa [List.isEmpty_iff] using hval kv hkv
  rw [← hpeq]
  simp [hv]

/-! ## Lemmas: the VLESS regex on well-shaped inputs -/

/-- The textual form of an optional fragment: nothing, or `'#'` followed
by the fragment text. -/
def fragCode : Option (List Char) → List Char
  | none => []
  | some fr => '#' :: fr

/-- A well-shaped VLESS URI assembled from its components, at the
character-list level. -/
def buildVlessL (u hst prt q : List Char) (f : Option (List Char)) : List Char :=
  "vless://".data ++ (u ++ '@' :: (hst ++ ':' :: (prt ++ '?' :: (q ++ fragCode f))))

/-- A well-shaped VLESS URI assembled from its components. -/
def buildVless (u hst prt q : List Char) (f : Option (List Char)) : String :=
  String.mk (buildVlessL u hst prt q f)

theorem goTail_clean {q : List Char} (hq1 : '#' ∉ q) (hq2 : '\n' ∉ q)
    {f : Option (List Char)} (hf : ∀ fr, f = some fr → '\n' ∉ fr) :
    ∀ acc, goTail acc (q ++ fragCode f) = some (acc ++ q, f.getD []) := by
  induction q with
  | nil =>
    intro acc
    cases f with
    | none => simp [goTail, fragCode]
    | some fr =>
      have hfr : '\n' ∉ fr := hf fr rfl
      have hft : fragTail fr = some fr := by
        unfold fragTail
        simp [hfr]
      simp [goTail, fragCode, hft]
  | cons c q' ih =>
    intro acc
    have hc1 : ¬ c = '#' := fun hc => hq1 (hc ▸ List.mem_cons_self c q')
    have hc2 : ¬ c = '\n' := fun hc => hq2 (hc ▸ List.mem_cons_self c q')
    have hq1' : '#' ∉ q' := fun hc => hq1 (List.mem_cons_of_mem c hc)
    have hq2' : '\n' ∉ q' := fun hc => hq2 (List.mem_cons_of_mem c hc)
    have hstep : goTail acc ((c :: q') ++ fragCode f) =
        goTail (acc ++ [c]) (q' ++ fragCode f) := by
      simp [goTail, hc1, hc2]
    rw [hstep, ih hq1' hq2' (acc ++ [c])]
    simp

theorem matchTail_clean {q : List Char} (hqne : q ≠ []) (hq1 : '#' ∉ q)
    (hq2 : '\n' ∉ q) {f : Option (List Char)} (hf : ∀ fr, f = some fr → '\n' ∉ fr) :
    matchTail (q ++ fragCode f) = some (q, f.getD []) := by
  cases q with
  | nil => exact absurd rfl hqne
  | cons c q' =>
    have hc2 : ¬ c = '\n' := fun hc => hq2 (hc ▸ List.mem_cons_self c q')
    have hq1' : '#' ∉ q' := fun hc => hq1 (List.mem_cons_of_mem c hc)
    have hq2' : '\n' ∉ q' := fun hc => hq2 (List.mem_cons_of_mem c hc)
    have : matchTail ((c :: q') ++ fragCode f) = goTail [c] (q' ++ fragCode f) := by
      by_cases hc1 : c = '#'
      · simp [matchTail, hc2]
      · simp [matchTail, hc2]
    rw [this, goTail_clean hq1' hq2' hf [c]]
    rfl

theorem takeWhile_digits_append {p : List Char} (hp : ∀ c ∈ p, c.isDigit = true)
    (r : List Char) : (p ++ '?' :: r).takeWhile Char.isDigit = p := by
  induction p with
  | nil => simp [List.takeWhile]
  | cons x xs ih =>
    have hx : x.isDigit = true := hp x (List.mem_cons_self x xs)
    have hxs : ∀ c ∈ xs, c.isDigit = true := fun c hc => hp c (List.mem_cons_of_mem x hc)
    simp [List.takeWhile, hx, ih hxs]

/-- The regex succeeds on a well-shaped VLESS URI and recovers exactly its
components. -/
theorem parseVlessL_build {u hst prt q : List Char} {f : Option (List Char)}
    (hu1 : u ≠ []) (hu2 : '@' ∉ u) (hh1 : hst ≠ []) (hh2 : ':' ∉ hst)
    (hp1 : prt ≠ []) (hp2 : ∀ c ∈ prt, c.isDigit = true)
    (hq1 : q ≠ []) (hq2 : '#' ∉ q) (hq3 : '\n' ∉ q)
    (hf : ∀ fr, f = some fr → '\n' ∉ fr) :
    parseVlessL (buildVlessL u hst prt q f) = some (u, hst, prt, q, f.getD []) := by
  have hpre : ("vless://".data.isPrefixOf (buildVlessL u hst prt q f)) = true := by
    rw [List.isPrefixOf_iff_prefix]
    exact List.prefix_append _ _
  have hdrop : (buildVlessL u hst prt q f).drop 8 =
      u ++ '@' :: (hst ++ ':' :: (prt ++ '?' :: (q ++ fragCode f))) :=
    List.drop_left' (by decide)
  have hsplit1 : splitFirst '@' (u ++ '@' :: (hst ++ ':' :: (prt ++ '?' :: (q ++ fragCode f)))) =
      some (u, hst ++ ':' :: (prt ++ '?' :: (q ++ fragCode f))) :=
    splitFirst_append _ hu2
  have hsplit2 : splitFirst ':' (hst ++ ':' :: (prt ++ '?' :: (q ++ fragCode f))) =
      some (hst, prt ++ '?' :: (q ++ fragCode f)) :=
    splitFirst_append _ hh2
  have htake : (prt ++ '?' :: (q ++ fragCode f)).takeWhile Char.isDigit = prt :=
    takeWhile_digits_append hp2 _
  have hdrop2 : (prt ++ '?' :: (q ++ fragCode f)).drop prt.length =
      '?' :: (q ++ fragCode f) :=
    List.drop_left' rfl
  unfold parseVlessL
  rw [hpre]
  simp only [if_true]
  rw [hdrop, hsplit1]
  simp only [hu1, if_false]
  rw [hsplit2]
  simp only [hh1, if_false]
  rw [htake]
  simp only [hp1, if_false]
  rw [hdrop2]
  simp only
  rw [matchTail_clean hq1 hq2 hq3 hf]
  rfl

/-! ## Lemmas: the normalizer on well-shaped inputs -/

/-- The fragment the normalizer emits: percent-decoded, stripped to word
characters and hyphens, dropped when nothing remains. -/
def fragOut : Option (List Char) → Option (List Char)
  | none => none
  | some fr =>
    let fc := (unquoteList fr).filter isWordDash
    if fc = [] then none else some fc

theorem normalizeL_build {u hst prt q : List Char} {f : Option (List Char)}
    (hu1 : u ≠ []) (hu2 : '@' ∉ u) (hh1 : hst ≠ []) (hh2 : ':' ∉ hst)
    (hp1 : prt ≠ []) (hp2 : ∀ c ∈ prt, c.isDigit = true)
    (hq1 : q ≠ []) (hq2 : '#' ∉ q) (hq3 : '\n' ∉ q)
    (hf : ∀ fr, f = some fr → '\n' ∉ fr) :
    normalizeL (buildVlessL u hst prt q f) =
      buildVlessL u hst prt (serializeParams (processParams q)) (fragOut f) := by
  have hpre : ("vless://".data.isPrefixOf (buildVlessL u hst prt q f)) = true := by
    rw [List.isPrefixOf_iff_prefix]
    exact List.prefix_append _ _
  unfold normalizeL
  rw [hpre]
  simp only [Bool.not_true, Bool.false_eq_true, if_false]
  rw [parseVlessL_build hu1 hu2 hh1 hh2 hp1 hp2 hq1 hq2 hq3 hf]
  simp only
  cases f with
  | none =>
    simp only [Option.getD_none, fragOut]
    unfold buildVlessL fragCode
    simp
  | some fr =>
    simp only [Option.getD_some, fragOut]
    by_cases hfr : fr = []
    · subst hfr
      simp [fragOut, buildVlessL, fragCode, unquoteList, unquoteAux]
    · simp only [hfr, if_false]
      by_cases hfc : (unquoteList fr).filter isWordDash = []
      · simp only [hfc, if_pos rfl]
        unfold buildVlessL fragCode
        simp
      · simp only [hfc, if_false]
        unfold buildVlessL fragCode
        simp

/-- Applying the normalizer to the output of `normalizeL_build` changes
nothing: the assembled output parses back to the same split, its
parameters re-process to themselves, and its fragment is already clean. -/
theorem normalizeL_idem {u hst prt q : List Char} {f : Option (List Char)}
    (hu1 : u ≠ []) (hu2 : '@' ∉ u) (hh1 : hst ≠ []) (hh2 : ':' ∉ hst)
    (hp1 : prt ≠ []) (hp2 : ∀ c ∈ prt, c.isDigit = true)
    (hq1 : q ≠ []) (hq : QClean q)
    (hf : ∀ fr, f = some fr → '\n' ∉ fr) :
    normalizeL (normalizeL (buildVlessL u hst prt q f)) =
      normalizeL (buildVlessL u hst prt q f) := by
  have hq2 : '#' ∉ q := fun hc => ((hq '#' hc).1) rfl
  have hq3 : '\n' ∉ q := fun hc => ((hq '\n' hc).2.1) rfl
  have hfirst := normalizeL_build hu1 hu2 hh1 hh2 hp1 hp2 hq1 hq2 hq3 hf
  rw [hfirst]
  set q' := serializeParams (processParams q) with hqdef
  have hclean := processParams_clean hq
  have hq'ne : q' ≠ [] :=
    serializeParams_ne_nil (processParams_ne_nil q) processParams_val_ne_nil
  have hq'chars := serializeParams_chars hclean
  have hq'2 : '#' ∉ q' := fun hc => (hq'chars '#' hc).1 rfl
  have hq'3 : '\n' ∉ q' := fun hc => (hq'chars '\n' hc).2 rfl
  have hf' : ∀ fr, fragOut f = some fr → '\n' ∉ fr := by
    intro fr hfr hmem
    cases f with
    | none => exact Option.noConfusion hfr
    | some fr0 =>
      unfold fragOut at hfr
      by_cases hfc : (unquoteList fr0).filter isWordDash = []
      · simp [hfc] at hfr
      · simp only [hfc, if_false, Option.some_inj] at hfr
        subst hfr
        have := List.of_mem_filter hmem
        simp [isWordDash] at this
  have hsecond := normalizeL_build hu1 hu2 hh1 hh2 hp1 hp2 hq'ne hq'2 hq'3 hf'
  rw [hsecond]
  have hqstable : serializeParams (processParams q') = q' := by
    rw [hqdef, processParams_stable hq]
  have hfstable : fragOut (fragOut f) = fragOut f := by
    cases f with
    | none => rfl
    | some fr0 =>
      unfold fragOut
      by_cases hfc : (unquoteList fr0).filter isWordDash = []
      · simp [hfc]
      · simp only [hfc, if_false]
        set fc := (unquoteList fr0).filter isWordDash with hfcdef
        have hword : ∀ c ∈ fc, isWordDash c = true := by
          intro c hc
          exact List.of_mem_filter hc
        have hpct : '%' ∉ fc := by
          intro hc
          have := hword '%' hc
          simp [isWordDash] at this
        have hfcunq : unquoteList fc = fc := unquoteList_eq_self hpct
        have hfcfil : fc.filter isWordDash = fc := List.filter_eq_self.mpr hword
        simp only [hfcunq, hfcfil, hfc, if_false]
  rw [hqstable, hfstable]

/-! ## Lemmas: sorting -/

theorem insSorted_perm (x : String) (l : List String) :
    (insSorted x l).Perm (x :: l) := by
  induction l with
  | nil => simp [insSorted]
  | cons y ys ih =>
    by_cases h : x < y
    · simp [insSorted, h]
    · simp only [insSorted, h, if_false]
      exact (List.Perm.cons y ih).trans (List.Perm.swap x y ys)

theorem pySorted_perm (l : List String) : (pySorted l).Perm l := by
  induction l with
  | nil => simp [pySorted]
  | cons x xs ih =>
    have hstep : pySorted (x :: xs) = insSorted x (pySorted xs) := rfl
    rw [hstep]
    exact (insSorted_perm x (pySorted xs)).trans (List.Perm.cons x ih)

theorem mem_pySorted {x : String} {l : List String} : x ∈ pySorted l ↔ x ∈ l :=
  (pySorted_perm l).mem_iff

theorem pySorted_nodup {l : List String} (h : l.Nodup) : (pySorted l).Nodup :=
  ((pySorted_perm l).symm.nodup h : _)

theorem mem_pySortedSet {x : String} {l : List String} : x ∈ pySortedSet l ↔ x ∈ l := by
  unfold pySortedSet
  rw [mem_pySorted, List.mem_dedup]

theorem pySortedSet_nodup (l : List String) : (pySortedSet l).Nodup :=
  pySorted_nodup (List.nodup_dedup l)

/-! ## Lemmas: the upload loop -/

theorem uploadBucket_superset {used : List String} {ks : List String} :
    ∀ {bucket : List String}, ∀ k ∈ bucket, k ∈ (uploadBucket used bucket ks).1 := by
  induction ks with
  | nil =>
    intro bucket k hk
    simpa [uploadBucket] using hk
  | cons c ks ih =>
    intro bucket k hk
    unfold uploadBucket
    by_cases hs : pyStartsWith "vless://" c
    · simp only [hs, if_true]
      by_cases hmem : normalize_vless_for_v2raytun c ∈ bucket ∨
          normalize_vless_for_v2raytun c ∈ used
      · simp only [hmem, if_true]
        exact ih k hk
      · simp only [hmem, if_false]
        exact ih k (List.mem_cons_of_mem _ hk)
    · simp only [hs, Bool.false_eq_true, if_false]
      exact ih k hk

theorem uploadBucket_mem {used : List String} {ks : List String} :
    ∀ {bucket : List String}, ∀ k ∈ (uploadBucket used bucket ks).1,
      k ∈ bucket ∨ k ∉ used := by
  induction ks with
  | nil =>
    intro bucket k hk
    simp only [uploadBucket] at hk
    exact Or.inl hk
  | cons c ks ih =>
    intro bucket k hk
    unfold uploadBucket at hk
    by_cases hs : pyStartsWith "vless://" c
    · simp only [hs, if_true] at hk
      by_cases hmem : normalize_vless_for_v2raytun c ∈ bucket ∨
          normalize_vless_for_v2raytun c ∈ used
      · simp only [hmem, if_true] at hk
        exact ih k hk
      · simp only [hmem, if_false] at hk
        rcases ih k hk with h | h
        · rcases List.mem_cons.mp h with h | h
          · push_neg at hmem
            exact Or.inr (h ▸ hmem.2)
          · exact Or.inl h
        · exact Or.inr h
    · simp only [hs, Bool.false_eq_true, if_false] at hk
      exact ih k hk

theorem uploadBucket_nodup {used : List String} {ks : List String} :
    ∀ {bucket : List String}, bucket.Nodup → (uploadBucket used bucket ks).1.Nodup := by
  induction ks with
  | nil =>
    intro bucket h
    simpa [uploadBucket] using h
  | cons c ks ih =>
    intro bucket h
    unfold uploadBucket
    by_cases hs : pyStartsWith "vless://" c
    · simp only [hs, if_true]
      by_cases hmem : normalize_vless_for_v2raytun c ∈ bucket ∨
          normalize_vless_for_v2raytun c ∈ used
      · simp only [hmem, if_true]
        exact ih h
      · simp only [hmem, if_false]
        push_neg at hmem
        exact ih (List.nodup_cons.mpr ⟨hmem.1, h⟩)
    · simp only [hs, Bool.false_eq_true, if_false]
      exact ih h

/-! ## The key-pool invariant -/

/-- One tier is duplicate-free and disjoint from the retired set. -/
def TierOk (tier used : List String) : Prop :=
  tier.Nodup ∧ ∀ k ∈ tier, k ∉ used

/-- Every tier of the store is duplicate-free and disjoint from `used`,
and `used` itself is duplicate-free. -/
def StoreInv (st : KeysStore) : Prop :=
  TierOk st.trial st.used ∧ TierOk st.month st.used ∧ TierOk st.year st.used ∧
    st.used.Nodup

theorem emptyKeysStore_inv : StoreInv emptyKeysStore := by
  refine ⟨⟨List.nodup_nil, ?_⟩, ⟨List.nodup_nil, ?_⟩, ⟨List.nodup_nil, ?_⟩, List.nodup_nil⟩ <;>
    simp [emptyKeysStore]

theorem uploadTransform_tierOk {tier used : List String} (incoming : List String)
    (h : TierOk tier used) :
    TierOk (pySorted (uploadBucket used tier.dedup incoming).1) used := by
  constructor
  · exact pySorted_nodup (uploadBucket_nodup (List.nodup_dedup tier))
  · intro k hk
    rw [mem_pySorted] at hk
    rcases uploadBucket_mem k hk with hmem | hmem
    · exact h.2 k (List.mem_dedup.mp hmem)
    · exact hmem

theorem uploadTransform_inv {st : KeysStore} (p : UploadPayload) (h : StoreInv st) :
    StoreInv (uploadTransform p st).1 := by
  obtain ⟨ht, hm, hy, hu⟩ := h
  exact ⟨uploadTransform_tierOk p.trial ht, uploadTransform_tierOk p.month hm,
    uploadTransform_tierOk p.year hy, hu⟩

theorem assignTransform_tierOk {tier used : List String} {key : String}
    (h : TierOk tier used) :
    TierOk (tier.erase key) (pySortedSet (key :: used)) := by
  constructor
  · exact h.1.erase key
  · intro k hk
    rw [mem_pySortedSet]
    have hkt : k ∈ tier := List.mem_of_mem_erase hk
    have hkkey : k ≠ key := ((h.1.mem_erase_iff).mp hk).1
    intro hc
    rcases List.mem_cons.mp hc with hc | hc
    · exact hkkey hc
    · exact h.2 k hkt hc

theorem assignTransform_inv {st : KeysStore} (key : String) (h : StoreInv st) :
    StoreInv (assignTransform key st) := by
  obtain ⟨ht, hm, hy, hu⟩ := h
  exact ⟨assignTransform_tierOk ht, assignTransform_tierOk hm,
    assignTransform_tierOk hy, pySortedSet_nodup _⟩

theorem stepOp_inv {st : KeysStore × Subs} (op : Op) (h : StoreInv st.1) :
    StoreInv (stepOp st op).1 := by
  cases op with
  | upload p =>
    have hauth : ¬ require_auth_rejects "admin" "admin" := by
      unfold require_auth_rejects
      simp
    simp only [stepOp, admin_keys_upload, hauth, if_false]
    exact uploadTransform_inv p h
  | assign userId ty key endDate nowIso =>
    have hauth : ¬ require_auth_rejects "admin" "admin" := by
      unfold require_auth_rejects
      simp
    simp only [stepOp, admin_assign, hauth, if_false]
    by_cases hval : userId = 0 ∨ (ty ≠ "trial" ∧ ty ≠ "month" ∧ ty ≠ "year") ∨ key = ""
    · simp only [hval, if_true]
      exact h
    · simp only [hval, if_false]
      exact assignTransform_inv _ h

theorem runOps_inv (ops : List Op) : StoreInv (runOps ops).1 := by
  have hgen : ∀ st : KeysStore × Subs, StoreInv st.1 →
      StoreInv (ops.foldl stepOp st).1 := by
    induction ops with
    | nil => intro st h; exact h
    | cons op ops ih =>
      intro st h
      exact ih _ (stepOp_inv op h)
  exact hgen _ emptyKeysStore_inv

theorem afterLookup_ne_badtoken (sub : SubRec) (ty : String)
    (parseEnd : String → Option Int) (now : Int) :
    afterLookup sub ty parseEnd now ≠ ⟨400, "Bad token"⟩ := by
  unfold afterLookup
  split
  · intro h; injection h with hs hb; exact absurd hb (by decide)
  · split
    · intro h; injection h with hs hb; exact absurd hb (by decide)
    · split
      · intro h; injection h with hs hb; exact absurd hb (by decide)
      · split
        · intro h; injection h with hs hb; exact absurd hb (by decide)
        · intro h; injection h with hs hb; exact absurd hs (by decide)

/-! ## The claims -/

/-- C1 (counterexample): uploading the same key for two tiers in one
authorized request, starting from the empty pool, stores its normalized
form in both the trial and the month set, so a normalized key does not
appear in at most one of the four sets, and insertion is not rejected when
the key is already present in a different tier. -/
theorem claim_C1_counterexample :
    "vless://u@h:1?x=1&encryption=none" ∈
      (runOps [Op.upload ⟨["vless://u@h:1?x=1"], ["vless://u@h:1?x=1"], []⟩]).1.trial ∧
    "vless://u@h:1?x=1&encryption=none" ∈
      (runOps [Op.upload ⟨["vless://u@h:1?x=1"], ["vless://u@h:1?x=1"], []⟩]).1.month := by
  decide

/-- C1 (amended): for every sequence of upload_keys and assign operations
starting from an empty key pool, every tier list is duplicate-free and
disjoint from used, and used is duplicate-free — the per-tier weakening of
the mutual-exclusion invariant that the code actually maintains. -/
theorem claim_C1 (ops : List Op) : StoreInv (runOps ops).1 :=
  runOps_inv ops

/-- C2: an assign call that passes the auth check and field validation
upserts the subscription record for the user (plan type, normalized key,
end_date verbatim, active true, timestamp), removes the normalized key
from every duplicate-free tier list, and adds it to used. -/
theorem claim_C2 (secret header : String) (userId : Int)
    (ty key endDate nowIso : String) (subs : Subs) (st : KeysStore)
    (hauth : ¬ require_auth_rejects secret header)
    (huid : userId ≠ 0) (hty : ty = "trial" ∨ ty = "month" ∨ ty = "year")
    (hkey : key ≠ "")
    (ht : st.trial.Nodup) (hm : st.month.Nodup) (hy : st.year.Nodup) :
    (admin_assign secret header userId ty key endDate nowIso subs st).1 = 200 ∧
    (admin_assign secret header userId ty key endDate nowIso subs st).2.1 (toString userId) =
      some ⟨ty, normalize_vless_for_v2raytun key, endDate, true, nowIso⟩ ∧
    normalize_vless_for_v2raytun key ∉
      (admin_assign secret header userId ty key endDate nowIso subs st).2.2.trial ∧
    normalize_vless_for_v2raytun key ∉
      (admin_assign secret header userId ty key endDate nowIso subs st).2.2.month ∧
    normalize_vless_for_v2raytun key ∉
      (admin_assign secret header userId ty key endDate nowIso subs st).2.2.year ∧
    normalize_vless_for_v2raytun key ∈
      (admin_assign secret header userId ty key endDate nowIso subs st).2.2.used := by
  have hval : ¬ (userId = 0 ∨ (ty ≠ "trial" ∧ ty ≠ "month" ∧ ty ≠ "year") ∨ key = "") := by
    rintro (h | ⟨h1, h2, h3⟩ | h)
    · exact huid h
    · rcases hty with hh | hh | hh
      · exact h1 hh
      · exact h2 hh
      · exact h3 hh
    · exact hkey h
  unfold admin_assign
  rw [if_neg hauth, if_neg hval]
  simp only [assignTransform]
  refine ⟨by simp, by simp, ?_, ?_, ?_, ?_⟩
  · intro hc
    exact (ht.mem_erase_iff.mp hc).1 rfl
  · intro hc
    exact (hm.mem_erase_iff.mp hc).1 rfl
  · intro hc
    exact (hy.mem_erase_iff.mp hc).1 rfl
  · rw [mem_pySortedSet]
    exact List.mem_cons_self _ _

/-- C2 (witness): a concrete authorized, valid assign on the empty stores
satisfies all hypotheses and the conclusion. -/
theorem claim_C2_witness :
    (admin_assign "s" "s" 7 "trial" "vless://u@h:1?x=1" "2030-01-01" "T"
      emptySubs emptyKeysStore).1 = 200 ∧
    (admin_assign "s" "s" 7 "trial" "vless://u@h:1?x=1" "2030-01-01" "T"
      emptySubs emptyKeysStore).2.1 (toString (7 : Int)) =
      some ⟨"trial", normalize_vless_for_v2raytun "vless://u@h:1?x=1",
        "2030-01-01", true, "T"⟩ ∧
    normalize_vless_for_v2raytun "vless://u@h:1?x=1" ∉
      (admin_assign "s" "s" 7 "trial" "vless://u@h:1?x=1" "2030-01-01" "T"
        emptySubs emptyKeysStore).2.2.trial ∧
    normalize_vless_for_v2raytun "vless://u@h:1?x=1" ∉
      (admin_assign "s" "s" 7 "trial" "vless://u@h:1?x=1" "2030-01-01" "T"
        emptySubs emptyKeysStore).2.2.month ∧
    normalize_vless_for_v2raytun "vless://u@h:1?x=1" ∉
      (admin_assign "s" "s" 7 "trial" "vless://u@h:1?x=1" "2030-01-01" "T"
        emptySubs emptyKeysStore).2.2.year ∧
    normalize_vless_for_v2raytun "vless://u@h:1?x=1" ∈
      (admin_assign "s" "s" 7 "trial" "vless://u@h:1?x=1" "2030-01-01" "T"
        emptySubs emptyKeysStore).2.2.used :=
  claim_C2 "s" "s" 7 "trial" "vless://u@h:1?x=1" "2030-01-01" "T"
    emptySubs emptyKeysStore (by decide) (by decide)
    (Or.inl rfl) (by decide) List.nodup_nil List.nodup_nil List.nodup_nil

/-- C3 (counterexample): a failing token decode yields the generic 500
response, not 400; and a decoded text with two underscores is split at the
first one and proceeds to the lookup, here answering 403, not 400. -/
theorem claim_C3_counterexample :
    get_subscription none emptySubs (fun _ => none) 0 =
      ⟨500, "Internal server error"⟩ ∧
    get_subscription (some "a_b_c") emptySubs (fun _ => none) 0 =
      ⟨403, "Subscription inactive"⟩ := by
  constructor <;> rfl

/-- C3 (amended): the retrieval endpoint answers the 400 Bad-token
response exactly when the token decodes successfully to a text containing
no underscore; decode failures give 500 and texts with one or more
underscores are split at the first underscore and proceed. -/
theorem claim_C3 (decoded : Option String) (subs : Subs)
    (parseEnd : String → Option Int) (now : Int) :
    get_subscription decoded subs parseEnd now = ⟨400, "Bad token"⟩ ↔
      ∃ d, decoded = some d ∧ '_' ∉ d.data := by
  cases decoded with
  | none =>
    unfold get_subscription
    constructor
    · intro h; injection h with hs hb; exact absurd hs (by decide)
    · rintro ⟨d, hd, _⟩; exact Option.noConfusion hd
  | some d =>
    unfold get_subscription splitUnderscore
    cases hsplit : splitFirst '_' d.data with
    | none =>
      simp only [hsplit]
      constructor
      · intro _
        exact ⟨d, rfl, splitFirst_eq_none_iff.mp hsplit⟩
      · intro _; trivial
    | some pr =>
      obtain ⟨pre, suf⟩ := pr
      simp only [hsplit]
      constructor
      · intro h
        cases hlook : subs (String.mk pre) with
        | none =>
          rw [hlook] at h
          injection h with hs hb
          exact absurd hb (by decide)
        | some sub =>
          rw [hlook] at h
          exact absurd h (afterLookup_ne_badtoken sub (String.mk suf) parseEnd now)
      · rintro ⟨d', hd', hnot⟩
        injection hd' with hd'
        subst hd'
        rw [splitFirst_eq_none_iff.mpr hnot] at hsplit
        exact Option.noConfusion hsplit

/-- The subscription store of the C4 scenario: user 12345 has an active
trial subscription with key `vless://u@h:443?x=1` and no end date. -/
def subsC4 : Subs := fun s =>
  if s = "12345" then some ⟨"trial", "vless://u@h:443?x=1", "", true, ""⟩ else none

/-- C4 (counterexample): the retrieval for `base64("12345_trial")` against
that record answers 200, but its body is not the spec's
`vless://u@h:443?x=1?encryption=none`. -/
theorem claim_C4_counterexample :
    (get_subscription (some "12345_trial") subsC4 (fun _ => none) 0).status = 200 ∧
    (get_subscription (some "12345_trial") subsC4 (fun _ => none) 0).body ≠
      "vless://u@h:443?x=1?encryption=none" := by
  constructor
  · rfl
  · decide

/-- C4 (amended): the retrieval answers 200 with body exactly
`vless://u@h:443?x=1&encryption=none` — the re-serialized parameters are
joined by `'&'`. -/
theorem claim_C4 :
    get_subscription (some "12345_trial") subsC4 (fun _ => none) 0 =
      ⟨200, "vless://u@h:443?x=1&encryption=none"⟩ := by
  decide

/-- C5 (counterexample): the normalizer is not idempotent on the
well-formed input `vless://u@h:1?k=%2B`: the first pass decodes `%2B` to
`+`, the second pass turns that `+` into a space. -/
theorem claim_C5_counterexample :
    normalize_vless_for_v2raytun
        (normalize_vless_for_v2raytun "vless://u@h:1?k=%2B") ≠
      normalize_vless_for_v2raytun "vless://u@h:1?k=%2B" := by
  decide

/-- C5 (amended): on every well-formed VLESS input whose query string
contains no percent sign, applying the normalizer twice yields the same
string as applying it once (a literal `'+'` in the query is fine: it
becomes a space on the first pass and the space is inert afterwards). -/
theorem claim_C5 (u hst prt q : List Char) (f : Option (List Char))
    (hu1 : u ≠ []) (hu2 : '@' ∉ u) (hh1 : hst ≠ []) (hh2 : ':' ∉ hst)
    (hp1 : prt ≠ []) (hp2 : ∀ c ∈ prt, c.isDigit = true)
    (hq1 : q ≠ []) (hq : QClean q)
    (hf : ∀ fr, f = some fr → '\n' ∉ fr) :
    normalize_vless_for_v2raytun
        (normalize_vless_for_v2raytun (buildVless u hst prt q f)) =
      normalize_vless_for_v2raytun (buildVless u hst prt q f) := by
  show String.mk (normalizeL (normalizeL (buildVlessL u hst prt q f))) =
    String.mk (normalizeL (buildVlessL u hst prt q f))
  rw [normalizeL_idem hu1 hu2 hh1 hh2 hp1 hp2 hq1 hq hf]

/-- C5 (witness): the hypotheses hold and idempotence follows for the
concrete well-formed input `vless://u@h:1?k=+`, whose query contains a
literal plus sign. -/
theorem claim_C5_witness :
    normalize_vless_for_v2raytun
        (normalize_vless_for_v2raytun (buildVless "u".data "h".data "1".data "k=+".data none)) =
      normalize_vless_for_v2raytun (buildVless "u".data "h".data "1".data "k=+".data none) :=
  claim_C5 "u".data "h".data "1".data "k=+".data none
    (by decide) (by decide) (by decide) (by decide) (by decide) (by decide)
    (by decide) (by decide) (fun _ h => Option.noConfusion h)

/-- C6: both admin handlers answer 401 exactly when the configured secret
is empty or the X-Auth-Token header differs from it; in particular an
empty configured secret rejects every request. -/
theorem claim_C6 (secret header : String) (p : UploadPayload) (st : KeysStore)
    (userId : Int) (ty key endDate nowIso : String) (subs : Subs) :
    ((admin_keys_upload secret header p st).1 = 401 ↔
      (secret = "" ∨ header ≠ secret)) ∧
    ((admin_assign secret header userId ty key endDate nowIso subs st).1 = 401 ↔
      (secret = "" ∨ header ≠ secret)) := by
  by_cases hauth : require_auth_rejects secret header
  · unfold admin_keys_upload admin_assign
    rw [if_pos hauth, if_pos hauth]
    simp only [require_auth_rejects] at hauth
    simp [hauth]
  · unfold admin_keys_upload admin_assign
    rw [if_neg hauth, if_neg hauth]
    simp only [require_auth_rejects] at hauth
    constructor
    · simp [hauth]
    · by_cases hval : userId = 0 ∨ (ty ≠ "trial" ∧ ty ≠ "month" ∧ ty ≠ "year") ∨ key = ""
      · rw [if_pos hval]
        simp [hauth]
      · rw [if_neg hval]
        simp [hauth]

/-- C7 (counterexample): an authorized upload with an empty payload keeps
a key that the starting store holds in both trial and used, so after the
operation the trial list still shares a key with the used set. -/
theorem claim_C7_counterexample :
    (admin_keys_upload "s" "s" ⟨[], [], []⟩ ⟨["k"], [], [], ["k"]⟩).1 = 200 ∧
    "k" ∈ (admin_keys_upload "s" "s" ⟨[], [], []⟩ ⟨["k"], [], [], ["k"]⟩).2.1.trial ∧
    "k" ∈ (admin_keys_upload "s" "s" ⟨[], [], []⟩ ⟨["k"], [], [], ["k"]⟩).2.1.used := by
  decide

/-- C7 (amended): an authorized upload grows every tier set (no key is
removed) and leaves every tier list duplicate-free, unconditionally; and
provided no tier shared a key with used beforehand, no tier shares a key
with used afterwards. -/
theorem claim_C7 (secret header : String) (p : UploadPayload) (st : KeysStore)
    (hauth : ¬ require_auth_rejects secret header) :
    (∀ k, (k ∈ st.trial → k ∈ (admin_keys_upload secret header p st).2.1.trial) ∧
      (k ∈ st.month → k ∈ (admin_keys_upload secret header p st).2.1.month) ∧
      (k ∈ st.year → k ∈ (admin_keys_upload secret header p st).2.1.year)) ∧
    ((admin_keys_upload secret header p st).2.1.trial.Nodup ∧
      (admin_keys_upload secret header p st).2.1.month.Nodup ∧
      (admin_keys_upload secret header p st).2.1.year.Nodup) ∧
    ((∀ k, (k ∈ st.trial → k ∉ st.used) ∧ (k ∈ st.month → k ∉ st.used) ∧
        (k ∈ st.year → k ∉ st.used)) →
      ∀ k, (k ∈ (admin_keys_upload secret header p st).2.1.trial →
          k ∉ (admin_keys_upload secret header p st).2.1.used) ∧
        (k ∈ (admin_keys_upload secret header p st).2.1.month →
          k ∉ (admin_keys_upload secret header p st).2.1.used) ∧
        (k ∈ (admin_keys_upload secret header p st).2.1.year →
          k ∉ (admin_keys_upload secret header p st).2.1.used)) := by
  unfold admin_keys_upload
  rw [if_neg hauth]
  simp only [uploadTransform]
  refine ⟨?_, ?_, ?_⟩
  · intro k
    refine ⟨?_, ?_, ?_⟩ <;> intro hk <;>
      exact mem_pySorted.mpr (uploadBucket_superset k (List.mem_dedup.mpr hk))
  · exact ⟨pySorted_nodup (uploadBucket_nodup (List.nodup_dedup _)),
      pySorted_nodup (uploadBucket_nodup (List.nodup_dedup _)),
      pySorted_nodup (uploadBucket_nodup (List.nodup_dedup _))⟩
  · intro hdisj k
    refine ⟨?_, ?_, ?_⟩ <;> intro hk <;> rw [mem_pySorted] at hk
    · rcases uploadBucket_mem k hk with h | h
      · exact (hdisj k).1 (List.mem_dedup.mp h)
      · exact h
    · rcases uploadBucket_mem k hk with h | h
      · exact (hdisj k).2.1 (List.mem_dedup.mp h)
      · exact h
    · rcases uploadBucket_mem k hk with h | h
      · exact (hdisj k).2.2 (List.mem_dedup.mp h)
      · exact h

/-- C7 (witness): the authorization hypothesis holds for a concrete
upload on a store that shares a key between trial and used; the
duplicate-freeness conclusion, which needs no disjointness proviso, is
extracted. -/
theorem claim_C7_witness :
    (admin_keys_upload "s" "s" ⟨["vless://u@h:1?x=1"], [], []⟩
      ⟨["k"], [], [], ["k"]⟩).2.1.trial.Nodup ∧
    (admin_keys_upload "s" "s" ⟨["vless://u@h:1?x=1"], [], []⟩
      ⟨["k"], [], [], ["k"]⟩).2.1.month.Nodup ∧
    (admin_keys_upload "s" "s" ⟨["vless://u@h:1?x=1"], [], []⟩
      ⟨["k"], [], [], ["k"]⟩).2.1.year.Nodup :=
  (claim_C7 "s" "s" ⟨["vless://u@h:1?x=1"], [], []⟩
    ⟨["k"], [], [], ["k"]⟩ (by decide)).2.1

/-- C8: for a retrieval that passes the token, lookup, active and type
checks on a key with the VLESS prefix, the endpoint answers 403 Expired
exactly when a non-empty stored end_date parses and the current time
exceeds it; an absent end_date, an unparseable one, or one not yet passed
falls through to the 200 response. -/
theorem claim_C8 (d uid ty : String) (sub : SubRec) (subs : Subs)
    (parseEnd : String → Option Int) (now : Int)
    (hsplit : splitUnderscore d = some (uid, ty))
    (hlook : subs uid = some sub) (hactive : sub.active = true)
    (hty : sub.type = ty) (hkey : pyStartsWith "vless://" sub.key = true) :
    ((sub.end_date ≠ "" ∧ (∃ t, parseEnd sub.end_date = some t ∧ now > t)) →
      get_subscription (some d) subs parseEnd now = ⟨403, "Subscription expired"⟩) ∧
    ((sub.end_date = "" ∨ parseEnd sub.end_date = none ∨
        (∃ t, parseEnd sub.end_date = some t ∧ now ≤ t)) →
      (get_subscription (some d) subs parseEnd now).status = 200) := by
  have hhandler : get_subscription (some d) subs parseEnd now =
      afterLookup sub ty parseEnd now := by
    simp only [get_subscription, hsplit, hlook]
  have hact : ¬ sub.active = false := by simp [hactive]
  have htyne : ¬ sub.type ≠ ty := by simp [hty]
  constructor
  · rintro ⟨hne, t, hparse, hlt⟩
    have hexp : isExpired parseEnd now sub.end_date = true := by
      unfold isExpired
      rw [if_neg hne, hparse]
      simpa using hlt
    rw [hhandler]
    unfold afterLookup
    rw [if_neg hact, if_neg htyne, if_pos hexp]
  · intro hok
    have hexp : isExpired parseEnd now sub.end_date = false := by
      unfold isExpired
      rcases hok with h | h | ⟨t, hparse, hle⟩
      · rw [if_pos h]
      · by_cases hne : sub.end_date = ""
        · rw [if_pos hne]
        · rw [if_neg hne, h]
      · by_cases hne : sub.end_date = ""
        · rw [if_pos hne]
        · rw [if_neg hne, hparse]
          simpa using hle
    rw [hhandler]
    unfold afterLookup
    rw [if_neg hact, if_neg htyne, if_neg (by simp [hexp]), if_neg (by simp [hkey])]

/-- C8 (witness): a concrete record with a future end date passes all
hypotheses and yields the 200 case. -/
theorem claim_C8_witness :
    ((SubRec.mk "trial" "vless://u@h:1?x=1" "E" true "T").end_date ≠ "" ∧
      (∃ t, (fun s => if s = "E" then some (10 : Int) else none)
          (SubRec.mk "trial" "vless://u@h:1?x=1" "E" true "T").end_date = some t ∧
        (5 : Int) > t) →
      get_subscription (some "1_trial")
        (fun s => if s = "1" then some (SubRec.mk "trial" "vless://u@h:1?x=1" "E" true "T") else none)
        (fun s => if s = "E" then some (10 : Int) else none) 5 =
          ⟨403, "Subscription expired"⟩) ∧
    (((SubRec.mk "trial" "vless://u@h:1?x=1" "E" true "T").end_date = "" ∨
      (fun s => if s = "E" then some (10 : Int) else none)
        (SubRec.mk "trial" "vless://u@h:1?x=1" "E" true "T").end_date = none ∨
      (∃ t, (fun s => if s = "E" then some (10 : Int) else none)
          (SubRec.mk "trial" "vless://u@h:1?x=1" "E" true "T").end_date = some t ∧
        (5 : Int) ≤ t)) →
      (get_subscription (some "1_trial")
        (fun s => if s = "1" then some (SubRec.mk "trial" "vless://u@h:1?x=1" "E" true "T") else none)
        (fun s => if s = "E" then some (10 : Int) else none) 5).status = 200) :=
  claim_C8 "1_trial" "1" "trial" (SubRec.mk "trial" "vless://u@h:1?x=1" "E" true "T")
    (fun s => if s = "1" then some (SubRec.mk "trial" "vless://u@h:1?x=1" "E" true "T") else none)
    (fun s => if s = "E" then some (10 : Int) else none) 5
    (by decide) rfl rfl rfl (by decide)

/-- C9 (counterexample): the empty-valued parameter `a=` of a well-formed
input is dropped from the output entirely, not re-emitted as a bare key as
the claim states. -/
theorem claim_C9_counterexample :
    normalize_vless_for_v2raytun "vless://u@h:1?a=&b=1" =
      "vless://u@h:1?b=1&encryption=none" ∧
    normalize_vless_for_v2raytun "vless://u@h:1?a=&b=1" ≠
      "vless://u@h:1?a&b=1&encryption=none" := by
  constructor
  · rfl
  · decide

/-- C9 (amended): every parameter the normalizer processes has a
non-empty value — `parse_qs` drops empty-valued pairs — so the re-emission
writes every parameter as `key=value` and the bare-key branch never
fires. -/
theorem claim_C9 (q : List Char) :
    serializeParams (processParams q) =
      joinAmp ((processParams q).map fun kv => kv.1 ++ '=' :: kv.2) ∧
    ∀ kv ∈ processParams q, kv.2 ≠ [] := by
  constructor
  · unfold serializeParams
    congr 1
    apply List.map_congr_left
    intro kv hkv
    have hv : (kv.2.isEmpty) = false := by
      simpa [List.isEmpty_iff] using processParams_val_ne_nil kv hkv
    simp [hv]
  · exact processParams_val_ne_nil

/-- C9 (witness): the serialization identity instantiated at the concrete
query string `a=&b=1`. -/
theorem claim_C9_witness :
    serializeParams (processParams "a=&b=1".data) =
      joinAmp ((processParams "a=&b=1".data).map fun kv => kv.1 ++ '=' :: kv.2) :=
  (claim_C9 "a=&b=1".data).1

/-- C10: upload_keys never changes the used list — not its members, their
multiplicity, or their order — for any request, authorized or not. -/
theorem claim_C10 (secret header : String) (p : UploadPayload) (st : KeysStore) :
    (admin_keys_upload secret header p st).2.1.used = st.used := by
  unfold admin_keys_upload uploadTransform
  split <;> rfl

end VpnConfig
